import Mathlib

/-!
Verification development for the parameter-generation core of the
applicationset repository (List generator, Merge generator, canonicalizer).

The List generator is embedded from `src/pkg/generators/list.go`.  The Merge
generator and the canonicalizer (`getParamSetsByMergeKey`) are not present in
the visible sources (only their tests are), so they are modelled from the
specification; their doc comments say so explicitly.

Representation choices:
- A decoded JSON value is `JSON` below: a string, an object (association list
  of field name to value, in decoded field order), or `other` standing for any
  non-string non-object value (number, bool, null, array).  Go iterates maps
  in unspecified order; the embedding fixes the decoded field order, a
  deterministic refinement.
- A Go `map[string]string` (a ParamSet) is an association list with unique
  keys maintained by `insertPS`, which overwrites in place like a Go map
  assignment.
- Fallible Go functions become `Except GenError`.
-/

/-- Decoded JSON value as produced by `json.Unmarshal` into
`map[string]interface\x7b\x7d` in list.go: a string, an object, or anything
else (`other`). -/
inductive JSON where
  | str (s : String)
  | obj (fields : List (String × JSON))
  | other

/-- Go `map[string]string`: an association list with key-unique insertion. -/
abbrev ParamSet := List (String × String)

/-- Go map assignment `m[k] = v`: overwrite the existing entry in place, or
append a new one. -/
def insertPS : ParamSet → String → String → ParamSet
  | [], k, v => [(k, v)]
  | (k', v') :: rest, k, v =>
      if k' = k then (k, v) :: rest else (k', v') :: insertPS rest k v

/-- Go map read `m[k]` as an `Option` (no value when the key is absent). -/
def lookupPS : ParamSet → String → Option String
  | [], _ => none
  | (k', v') :: rest, k => if k' = k then some v' else lookupPS rest k

/-- Errors of the generator core.  `nonUniqueParamSets` carries the colliding
canonical signature, as the Go error message does. -/
inductive GenError where
  | emptyAppSetGenerator
  | lessThanTwoGeneratorsInMerge
  | noMergeKeys
  | nonUniqueParamSets (duplicateKey : String)
  | dispatchError
  | unmarshalElement
  | parsingValuesMap
  | parsingValueAsString
deriving DecidableEq, Repr

/-- Stable error message strings (spec section 6). -/
def errMessage : GenError → String
  | .emptyAppSetGenerator => "generator spec is empty"
  | .lessThanTwoGeneratorsInMerge => "there should be at least two generators in merge"
  | .noMergeKeys => "no merge keys were specified"
  | .nonUniqueParamSets dup => "param sets are not unique. Duplicate key was " ++ dup
  | .dispatchError => "generator not supported"
  | .unmarshalElement => "error unmarshling list element"
  | .parsingValuesMap => "error parsing values map"
  | .parsingValueAsString => "error parsing value as string"

/-- Opaque template payload attached to a generator node; the core never
inspects it. -/
structure ApplicationSetTemplate where
  raw : String
deriving DecidableEq, Repr

/-- The `ListGenerator` spec variant: raw elements plus a template. -/
structure ListGeneratorSpec where
  elements : List JSON
  template : ApplicationSetTemplate

/-- A nested generator definition inside a combinator; the claims only need
the `List` variant (an absent variant is a dispatch error, spec section 4.3). -/
structure NestedGen where
  list : Option ListGeneratorSpec

/-- The `MergeGenerator` spec variant. -/
structure MergeGeneratorSpec where
  generators : List NestedGen
  mergeKeys : List String
  template : ApplicationSetTemplate

/-- The tagged-union generator specification (only the variants the claims
need). -/
structure ApplicationSetGenerator where
  list : Option ListGeneratorSpec := none
  merge : Option MergeGeneratorSpec := none

/-- Effectful map over a list in the `Except` monad, failing fast on the
first error (the shape of the Go `for` loops used below). -/
def mapExcept (f : α → Except GenError β) : List α → Except GenError (List β)
  | [] => .ok []
  | a :: as =>
    match f a with
    | .error e => .error e
    | .ok b =>
      match mapExcept f as with
      | .error e => .error e
      | .ok bs => .ok (b :: bs)

/-- Inner loop of list.go lines 53-60: flatten the sub-object of a `values`
field, prefixing each sub-key with `values.`; a non-string sub-value is a
value-parsing error. -/
def addValuesFields : List (String × JSON) → ParamSet → Except GenError ParamSet
  | [], params => .ok params
  | (k, v) :: rest, params =>
    match v with
    | .str s => addValuesFields rest (insertPS params ("values." ++ k) s)
    | _ => .error .parsingValueAsString

/-- Field loop of list.go lines 47-67: a `values` field must be an object and
is flattened via `addValuesFields`; any other field must be a string and is
copied verbatim. -/
def flattenFields : List (String × JSON) → ParamSet → Except GenError ParamSet
  | [], params => .ok params
  | (key, value) :: rest, params =>
    if key = "values" then
      match value with
      | .obj subfields =>
        match addValuesFields subfields params with
        | .error e => .error e
        | .ok params' => flattenFields rest params'
      | _ => .error .parsingValuesMap
    else
      match value with
      | .str s => flattenFields rest (insertPS params key s)
      | _ => .error .parsingValueAsString

/-- Per-element body of list.go lines 40-69: decode the raw element into an
object (else the unmarshal error) and flatten its fields into a fresh
ParamSet. -/
def flattenElement : JSON → Except GenError ParamSet
  | .obj fields => flattenFields fields []
  | _ => .error .unmarshalElement

/-- Embedding of `ListGenerator.GenerateParams` (list.go lines 29-73): nil
receiver argument or nil `List` variant is the empty-spec error; otherwise one
ParamSet per element, in element order, failing fast. -/
def ListGenerator.GenerateParams (g : Option ApplicationSetGenerator) :
    Except GenError (List ParamSet) :=
  match g with
  | none => .error .emptyAppSetGenerator
  | some gg =>
    match gg.list with
    | none => .error .emptyAppSetGenerator
    | some spec => mapExcept flattenElement spec.elements

/-- Embedding of `ListGenerator.GetTemplate` (list.go lines 25-27).  The Go
code unconditionally dereferences `appSetGenerator.List`; the embedding makes
the accessor Option-valued, `none` exactly on the inputs where the Go code
would dereference nil. -/
def ListGenerator.GetTemplate (g : Option ApplicationSetGenerator) :
    Option ApplicationSetTemplate :=
  (g.bind (fun gg => gg.list)).map (fun spec => spec.template)

/-- Modelled from the spec (section 4.6; the canonicalizer's source file is
not under src/): deduplicate the merge keys preserving the first occurrence. -/
def firstDedup : List String → List String
  | [] => []
  | k :: ks => k :: (firstDedup ks).filter (fun x => x != k)

/-- Modelled from the spec (section 4.6): sort the deduplicated key names for
determinism. -/
def sortKeys (ks : List String) : List String :=
  List.insertionSort (fun a b => a ≤ b) ks

/-- JSON string quoting used by the canonical serialization. -/
def quoteJSON (s : String) : String := "\"" ++ s ++ "\""

/-- Comma-separated `"key":"value"` entries of the canonical serialization. -/
def serializeEntries : List (String × String) → String
  | [] => ""
  | [(k, v)] => quoteJSON k ++ ":" ++ quoteJSON v
  | (k, v) :: rest => quoteJSON k ++ ":" ++ quoteJSON v ++ "," ++ serializeEntries rest

/-- Canonical object serialization: stable key order, no whitespace. -/
def serializeObj (entries : List (String × String)) : String :=
  "\x7b" ++ serializeEntries entries ++ "\x7d"

/-- Modelled from the spec (section 4.6, `signature`; the canonicalizer's
source file is not under src/): deduplicate the merge keys preserving first
occurrence, sort them, build an object over exactly those keys with missing
values defaulted to the empty string, and serialize it canonically. -/
def paramSetKey (mergeKeys : List String) (p : ParamSet) : String :=
  serializeObj ((sortKeys (firstDedup mergeKeys)).map (fun k => (k, (lookupPS p k).getD "")))

/-- Modelled from the spec (section 4.6, `index` scan; source file not under
src/): walk the param sets in input order, keeping the signatures already
seen; the first signature seen twice is the `nonUniqueParamSets` error. -/
def indexParamSets (mergeKeys : List String) :
    List ParamSet → List String → Except GenError (List (String × ParamSet))
  | [], _ => .ok []
  | p :: rest, seen =>
    let sig := paramSetKey mergeKeys p
    if sig ∈ seen then .error (.nonUniqueParamSets sig)
    else
      match indexParamSets mergeKeys rest (sig :: seen) with
      | .error e => .error e
      | .ok tail => .ok ((sig, p) :: tail)

/-- Modelled from the spec (section 4.6, `index`; source file not under
src/): fail `noMergeKeys` on an empty key list, otherwise index the param
sets by canonical signature, in input order, failing on the first duplicate. -/
def getParamSetsByMergeKey (mergeKeys : List String) (paramSets : List ParamSet) :
    Except GenError (List (String × ParamSet)) :=
  if mergeKeys = [] then .error .noMergeKeys
  else indexParamSets mergeKeys paramSets []

/-- Insert a list of entries into a ParamSet, left to right, each by Go map
assignment. -/
def insertAll (ps : ParamSet) (entries : List (String × String)) : ParamSet :=
  entries.foldl (fun acc kv => insertPS acc kv.1 kv.2) ps

/-- Modelled from the spec (section 4.5 step 3; merge source file not under
src/): merge an overlay row into a base row — overlay fields overwrite
same-named base fields, new overlay fields are added, base fields absent from
the overlay are untouched. -/
def mergeRow (base overlay : ParamSet) : ParamSet :=
  insertAll base overlay

/-- Modelled from the spec (section 4.5 step 3): if an indexed base row has
the given signature, merge the overlay row into it; rows with other
signatures are untouched, and an unmatched overlay row changes nothing. -/
def updateSig (indexed : List (String × ParamSet)) (sig : String) (row : ParamSet) :
    List (String × ParamSet) :=
  indexed.map (fun e => if e.1 = sig then (e.1, mergeRow e.2 row) else e)

/-- Modelled from the spec (section 4.5 step 3): apply every row of one
overlay generator's output, in order, to the indexed base rows. -/
def applyOverlay (mergeKeys : List String) (indexed : List (String × ParamSet))
    (overlay : List ParamSet) : List (String × ParamSet) :=
  overlay.foldl (fun acc row => updateSig acc (paramSetKey mergeKeys row) row) indexed

/-- Modelled from the spec (section 4.5 steps 2-4; merge source file not
under src/): index the base rows by signature (collision or empty merge keys
fail here), apply each overlay in list order, and return the enriched base
rows in their original order. -/
def mergeParamSets (mergeKeys : List String) (base : List ParamSet)
    (overlays : List (List ParamSet)) : Except GenError (List ParamSet) :=
  match getParamSetsByMergeKey mergeKeys base with
  | .error e => .error e
  | .ok indexed =>
      .ok ((overlays.foldl (fun acc overlay => applyOverlay mergeKeys acc overlay) indexed).map
        Prod.snd)

/-- Modelled from the spec (section 4.3 dispatch; registry source not under
src/): evaluate a nested generator definition through the registry — the
claims only exercise the `List` kind; a definition with no variant populated
is a terminal dispatch error. -/
def evalNested (n : NestedGen) : Except GenError (List ParamSet) :=
  match n.list with
  | some spec => mapExcept flattenElement spec.elements
  | none => .error .dispatchError

/-- Modelled from the spec (section 4.5; `MergeGenerator.GenerateParams`
source file not under src/): nil spec or nil `Merge` variant is the
empty-spec error; fewer than two nested generators is
`lessThanTwoGeneratorsInMerge`, checked before any nested generator is
evaluated; otherwise evaluate all nested generators fail-fast and merge the
overlays into the base. -/
def MergeGenerator.GenerateParams (g : Option ApplicationSetGenerator) :
    Except GenError (List ParamSet) :=
  match g with
  | none => .error .emptyAppSetGenerator
  | some gg =>
    match gg.merge with
    | none => .error .emptyAppSetGenerator
    | some m =>
      if m.generators.length < 2 then .error .lessThanTwoGeneratorsInMerge
      else
        match mapExcept evalNested m.generators with
        | .error e => .error e
        | .ok [] => .error .lessThanTwoGeneratorsInMerge
        | .ok (base :: overlays) => mergeParamSets m.mergeKeys base overlays

/-- Left-biased choice on options (the shape of "overlay value if present,
else base value"). -/
def orO (a b : Option String) : Option String :=
  match a with
  | some v => some v
  | none => b

/-- String content of a JSON leaf, empty for non-strings (only used where a
string has already been checked for). -/
def strOf : JSON → String
  | .str s => s
  | _ => ""

/-- Decides whether one decoded field satisfies the List flattening rule: a
`values` field must be an object whose values are all strings; any other
field must be a string. -/
def goodField : String × JSON → Bool
  | (k, v) =>
    if k = "values" then
      match v with
      | .obj subs => subs.all (fun kv => match kv.2 with | .str _ => true | _ => false)
      | _ => false
    else
      match v with
      | .str _ => true
      | _ => false

/-- Decides whether every field of a decoded element satisfies the flattening
rule. -/
def goodFields (fields : List (String × JSON)) : Bool :=
  fields.all goodField

/-- ParamSet entries contributed by one decoded field, per the spec's words:
a `values` object contributes one `values.`-prefixed entry per sub-field; any
other field is copied verbatim under its own name. -/
def entriesOfField : String × JSON → List (String × String)
  | (k, v) =>
    if k = "values" then
      match v with
      | .obj subs => subs.map (fun kv => ("values." ++ kv.1, strOf kv.2))
      | _ => []
    else [(k, strOf v)]

/-- ParamSet entries contributed by a whole element, in field order. -/
def entriesOf : List (String × JSON) → List (String × String)
  | [] => []
  | f :: rest => entriesOfField f ++ entriesOf rest

/-- Specification-side flattening of one element, written from the spec's
words (section 4.2) as the refinement target for the embedded list.go code:
collect the per-field entries and insert them into a fresh ParamSet. -/
def listFlattenSpec (fields : List (String × JSON)) : ParamSet :=
  insertAll [] (entriesOf fields)

/-- Template placeholder used by the concrete test fixtures. -/
def tmpl : ApplicationSetTemplate := ⟨""⟩

/-- Nested generator wrapping a single-element List generator, as
`getNestedListGenerator` does in the merge tests. -/
def nestedListOf (e : JSON) : NestedGen := ⟨some ⟨[e], tmpl⟩⟩

/-- Base element of the happy-flow merge scenario. -/
def elemBase : JSON := .obj [("a", .str "1_1"), ("b", .str "same"), ("c", .str "1_3")]

/-- First overlay element of the happy-flow merge scenario. -/
def elemOverlay1 : JSON := .obj [("a", .str "2_1"), ("b", .str "same")]

/-- Second overlay element of the happy-flow merge scenario (its merge-key
value matches no base row). -/
def elemOverlay2 : JSON := .obj [("a", .str "3_1"), ("b", .str "different"), ("c", .str "3_3")]

/-- The happy-flow merge spec from the tests: three single-element list
generators under mergeKeys ["b"]. -/
def happyFlowSpec : ApplicationSetGenerator :=
  { merge := some ⟨[nestedListOf elemBase, nestedListOf elemOverlay1, nestedListOf elemOverlay2],
      ["b"], tmpl⟩ }

theorem orO_assoc (a b c : Option String) : orO (orO a b) c = orO a (orO b c) := by
  cases a <;> rfl

theorem orO_if (p : Prop) [Decidable p] (v : String) (x : Option String) :
    orO (if p then some v else none) x = if p then some v else x := by
  split <;> rfl

theorem lookupPS_insertPS (ps : ParamSet) (k v key : String) :
    lookupPS (insertPS ps k v) key = if k = key then some v else lookupPS ps key := by
  induction ps with
  | nil => simp only [insertPS, lookupPS]
  | cons hd tl ih =>
    obtain ⟨k', v'⟩ := hd
    simp only [insertPS]
    by_cases h1 : k' = k
    · subst h1
      simp only [if_pos rfl, lookupPS]
      by_cases h2 : k' = key
      · simp [h2]
      · simp [h2, lookupPS]
    · simp only [if_neg h1, lookupPS]
      by_cases h2 : k' = key
      · subst h2
        have : ¬ (k = k') := fun h => h1 h.symm
        simp [this]
      · simp [h2, ih]

theorem lookupPS_append (l1 l2 : ParamSet) (key : String) :
    lookupPS (l1 ++ l2) key = orO (lookupPS l1 key) (lookupPS l2 key) := by
  induction l1 with
  | nil => simp [lookupPS, orO]
  | cons hd tl ih =>
    obtain ⟨k', v'⟩ := hd
    by_cases h : k' = key
    · simp [lookupPS, h, orO]
    · simp [lookupPS, h, ih]

theorem insertAll_cons (ps : ParamSet) (kv : String × String) (rest : List (String × String)) :
    insertAll ps (kv :: rest) = insertAll (insertPS ps kv.1 kv.2) rest := rfl

theorem insertAll_append (ps : ParamSet) (l1 l2 : List (String × String)) :
    insertAll ps (l1 ++ l2) = insertAll (insertAll ps l1) l2 := by
  simp [insertAll, List.foldl_append]

theorem lookupPS_insertAll (entries : List (String × String)) (ps : ParamSet) (key : String) :
    lookupPS (insertAll ps entries) key = orO (lookupPS entries.reverse key) (lookupPS ps key) := by
  induction entries generalizing ps with
  | nil => simp [insertAll, lookupPS, orO]
  | cons hd rest ih =>
    obtain ⟨k, v⟩ := hd
    rw [insertAll_cons, ih, List.reverse_cons, lookupPS_append]
    rw [orO_assoc]
    congr 1
    rw [lookupPS_insertPS]
    simp only [lookupPS]
    rw [orO_if]

theorem lookupPS_mergeRow (b o : ParamSet) (key : String) :
    lookupPS (mergeRow b o) key = orO (lookupPS o.reverse key) (lookupPS b key) :=
  lookupPS_insertAll o b key

theorem lookupPS_nodup_mem (l : ParamSet) (k v : String)
    (hnd : (l.map Prod.fst).Nodup) (hmem : (k, v) ∈ l) : lookupPS l k = some v := by
  induction l with
  | nil => cases hmem
  | cons hd tl ih =>
    obtain ⟨k', v'⟩ := hd
    simp only [List.map_cons, List.nodup_cons] at hnd
    rcases List.mem_cons.mp hmem with h | h
    · injection h with h1 h2
      subst h1
      subst h2
      simp [lookupPS]
    · have hk : k' ≠ k := by
        intro hk
        exact hnd.1 (hk ▸ (List.mem_map.mpr ⟨(k, v), h, rfl⟩))
      simp only [lookupPS, if_neg hk]
      exact ih hnd.2 h

theorem mapExcept_ok_length (f : α → Except GenError β) (l : List α) (res : List β)
    (h : mapExcept f l = .ok res) : res.length = l.length := by
  induction l generalizing res with
  | nil =>
    simp only [mapExcept, Except.ok.injEq] at h
    subst h
    rfl
  | cons a as ih =>
    simp only [mapExcept] at h
    cases hf : f a with
    | error e => rw [hf] at h; cases h
    | ok b =>
      rw [hf] at h
      cases hm : mapExcept f as with
      | error e => rw [hm] at h; cases h
      | ok bs =>
        rw [hm] at h
        cases h
        simp [ih bs hm]

theorem mapExcept_ok_get (f : α → Except GenError β) (l : List α) (res : List β)
    (h : mapExcept f l = .ok res) :
    ∀ i (h1 : i < l.length) (h2 : i < res.length),
      f (l.get ⟨i, h1⟩) = .ok (res.get ⟨i, h2⟩) := by
  induction l generalizing res with
  | nil =>
    intro i h1
    exact absurd h1 (Nat.not_lt_zero i)
  | cons a as ih =>
    simp only [mapExcept] at h
    cases hf : f a with
    | error e => rw [hf] at h; cases h
    | ok b =>
      rw [hf] at h
      cases hm : mapExcept f as with
      | error e => rw [hm] at h; cases h
      | ok bs =>
        rw [hm] at h
        cases h
        intro i h1 h2
        cases i with
        | zero => simpa using hf
        | succ n =>
          simp only [List.get]
          exact ih bs hm n (Nat.lt_of_succ_lt_succ h1) (Nat.lt_of_succ_lt_succ h2)

theorem mapExcept_ok_mem (f : α → Except GenError β) (l : List α) (res : List β)
    (h : mapExcept f l = .ok res) : ∀ a ∈ l, ∃ b, f a = .ok b := by
  induction l generalizing res with
  | nil => intro a ha; cases ha
  | cons a as ih =>
    simp only [mapExcept] at h
    cases hf : f a with
    | error e => rw [hf] at h; cases h
    | ok b =>
      rw [hf] at h
      cases hm : mapExcept f as with
      | error e => rw [hm] at h; cases h
      | ok bs =>
        intro x hx
        rcases List.mem_cons.mp hx with rfl | hx'
        · exact ⟨b, hf⟩
        · exact ih bs hm x hx'

theorem addValuesFields_ok (subs : List (String × JSON))
    (hall : subs.all (fun kv => match kv.2 with | .str _ => true | _ => false) = true) :
    ∀ acc, addValuesFields subs acc =
      .ok (insertAll acc (subs.map (fun kv => ("values." ++ kv.1, strOf kv.2)))) := by
  induction subs with
  | nil => intro acc; rfl
  | cons hd rest ih =>
    intro acc
    obtain ⟨k, v⟩ := hd
    simp only [List.all_cons, Bool.and_eq_true] at hall
    cases v with
    | str s =>
      simp only [addValuesFields, List.map_cons, insertAll_cons, strOf]
      exact ih hall.2 _
    | obj fs => exact Bool.noConfusion hall.1
    | other => exact Bool.noConfusion hall.1

theorem addValuesFields_err (subs : List (String × JSON))
    (hbad : subs.all (fun kv => match kv.2 with | .str _ => true | _ => false) = false) :
    ∀ acc, addValuesFields subs acc = .error .parsingValueAsString := by
  induction subs with
  | nil => exact Bool.noConfusion hbad
  | cons hd rest ih =>
    intro acc
    obtain ⟨k, v⟩ := hd
    cases v with
    | str s =>
      simp only [List.all_cons] at hbad
      simp only [addValuesFields]
      exact ih (by simpa using hbad) _
    | obj fs => rfl
    | other => rfl

theorem flattenFields_ok (fields : List (String × JSON))
    (hgood : goodFields fields = true) :
    ∀ acc, flattenFields fields acc = .ok (insertAll acc (entriesOf fields)) := by
  induction fields with
  | nil => intro acc; rfl
  | cons hd rest ih =>
    intro acc
    obtain ⟨k, v⟩ := hd
    simp only [goodFields, List.all_cons, Bool.and_eq_true] at hgood
    have hgRest : goodFields rest = true := hgood.2
    have hgHd := hgood.1
    by_cases hk : k = "values"
    · subst hk
      cases v with
      | obj subs =>
        have hsub : subs.all (fun kv => match kv.2 with | .str _ => true | _ => false) = true := by
          simpa [goodField] using hgHd
        simp [flattenFields, addValuesFields_ok subs hsub, ih hgRest, entriesOf, entriesOfField,
          insertAll_append]
      | str s => simp [goodField] at hgHd
      | other => simp [goodField] at hgHd
    · cases v with
      | str s =>
        simp only [flattenFields, if_neg hk]
        rw [ih hgRest]
        simp only [entriesOf, entriesOfField, if_neg hk, strOf]
        rfl
      | obj fs => simp [goodField, if_neg hk] at hgHd
      | other => simp [goodField, if_neg hk] at hgHd

theorem flattenFields_err (fields : List (String × JSON))
    (hbad : goodFields fields = false) :
    ∀ acc, ∃ e, flattenFields fields acc = .error e ∧
      (e = .parsingValuesMap ∨ e = .parsingValueAsString) := by
  induction fields with
  | nil => exact Bool.noConfusion hbad
  | cons hd rest ih =>
    intro acc
    obtain ⟨k, v⟩ := hd
    simp only [goodFields, List.all_cons] at hbad
    by_cases hgHd : goodField (k, v) = true
    · have hgRest : goodFields rest = false := by
        rw [hgHd, Bool.true_and] at hbad
        exact hbad
      by_cases hk : k = "values"
      · subst hk
        cases v with
        | obj subs =>
          have hsub : subs.all (fun kv => match kv.2 with | .str _ => true | _ => false) = true := by
            simpa [goodField] using hgHd
          simp only [flattenFields, addValuesFields_ok subs hsub acc]
          simpa using ih hgRest _
        | str s => simp [goodField] at hgHd
        | other => simp [goodField] at hgHd
      · cases v with
        | str s =>
          simp only [flattenFields, if_neg hk]
          exact ih hgRest _
        | obj fs => simp [goodField, if_neg hk] at hgHd
        | other => simp [goodField, if_neg hk] at hgHd
    · by_cases hk : k = "values"
      · subst hk
        cases v with
        | obj subs =>
          have hsub : subs.all (fun kv => match kv.2 with | .str _ => true | _ => false) = false := by
            simp only [goodField, if_pos] at hgHd
            exact Bool.eq_false_iff.mpr (by simpa using hgHd)
          refine ⟨.parsingValueAsString, ?_, Or.inr rfl⟩
          simp [flattenFields, addValuesFields_err subs hsub]
        | str s => exact ⟨.parsingValuesMap, rfl, Or.inl rfl⟩
        | other => exact ⟨.parsingValuesMap, rfl, Or.inl rfl⟩
      · cases v with
        | str s => simp [goodField, if_neg hk] at hgHd
        | obj fs =>
          refine ⟨.parsingValueAsString, ?_, Or.inr rfl⟩
          simp [flattenFields, if_neg hk]
        | other =>
          refine ⟨.parsingValueAsString, ?_, Or.inr rfl⟩
          simp [flattenFields, if_neg hk]

theorem indexParamSets_ok_length (ks : List String) (pss : List ParamSet) (seen : List String)
    (l : List (String × ParamSet)) (h : indexParamSets ks pss seen = .ok l) :
    l.length = pss.length := by
  induction pss generalizing seen l with
  | nil =>
    simp only [indexParamSets, Except.ok.injEq] at h
    subst h
    rfl
  | cons p rest ih =>
    simp only [indexParamSets] at h
    by_cases hs : paramSetKey ks p ∈ seen
    · rw [if_pos hs] at h; cases h
    · rw [if_neg hs] at h
      cases hm : indexParamSets ks rest (paramSetKey ks p :: seen) with
      | error e => rw [hm] at h; cases h
      | ok tail =>
        rw [hm] at h
        cases h
        simp [ih _ _ hm]

theorem indexParamSets_ok_of_nodup (ks : List String) (pss : List ParamSet) (seen : List String)
    (hnd : (pss.map (paramSetKey ks)).Nodup)
    (hseen : ∀ p ∈ pss, paramSetKey ks p ∉ seen) :
    indexParamSets ks pss seen = .ok (pss.map (fun p => (paramSetKey ks p, p))) := by
  induction pss generalizing seen with
  | nil => rfl
  | cons p rest ih =>
    have hs : paramSetKey ks p ∉ seen := hseen p (List.mem_cons_self p rest)
    simp only [List.map_cons, List.nodup_cons] at hnd
    have hseen' : ∀ q ∈ rest, paramSetKey ks q ∉ (paramSetKey ks p :: seen) := by
      intro q hq
      simp only [List.mem_cons, not_or]
      constructor
      · intro he
        exact hnd.1 (he ▸ List.mem_map.mpr ⟨q, hq, rfl⟩)
      · exact hseen q (List.mem_cons_of_mem p hq)
    have hrec := ih (paramSetKey ks p :: seen) hnd.2 hseen'
    simp only [indexParamSets, if_neg hs, hrec, List.map_cons]

theorem indexParamSets_err_of_dup (ks : List String) (p : ParamSet) (post : List ParamSet) :
    ∀ (pre : List ParamSet) (seen : List String),
    (pre.map (paramSetKey ks)).Nodup →
    (∀ q ∈ pre, paramSetKey ks q ∉ seen) →
    (paramSetKey ks p ∈ pre.map (paramSetKey ks) ∨ paramSetKey ks p ∈ seen) →
    indexParamSets ks (pre ++ p :: post) seen = .error (.nonUniqueParamSets (paramSetKey ks p)) := by
  intro pre
  induction pre with
  | nil =>
    intro seen _ _ hdup
    have hs : paramSetKey ks p ∈ seen := by
      rcases hdup with h | h
      · simp at h
      · exact h
    simp only [List.nil_append, indexParamSets, if_pos hs]
  | cons q rest ih =>
    intro seen hnd hseen hdup
    have hqs : paramSetKey ks q ∉ seen := hseen q (List.mem_cons_self q rest)
    simp only [List.map_cons, List.nodup_cons] at hnd
    have hseen' : ∀ r ∈ rest, paramSetKey ks r ∉ (paramSetKey ks q :: seen) := by
      intro r hr
      simp only [List.mem_cons, not_or]
      exact ⟨fun he => hnd.1 (he ▸ List.mem_map.mpr ⟨r, hr, rfl⟩),
        hseen r (List.mem_cons_of_mem q hr)⟩
    have hdup' : paramSetKey ks p ∈ rest.map (paramSetKey ks) ∨
        paramSetKey ks p ∈ (paramSetKey ks q :: seen) := by
      rcases hdup with h | h
      · rw [List.map_cons, List.mem_cons] at h
        rcases h with h | h
        · exact Or.inr (h ▸ List.mem_cons_self _ _)
        · exact Or.inl h
      · exact Or.inr (List.mem_cons_of_mem _ h)
    have hrec := ih (paramSetKey ks q :: seen) hnd.2 hseen' hdup'
    simp only [List.cons_append, indexParamSets, if_neg hqs]
    have hra : List.append rest (p :: post) = rest ++ p :: post := rfl
    rw [hra, hrec]

theorem updateSig_length (idx : List (String × ParamSet)) (sig : String) (row : ParamSet) :
    (updateSig idx sig row).length = idx.length := by
  simp [updateSig]

theorem updateSig_not_mem (sig : String) (row : ParamSet) :
    ∀ idx : List (String × ParamSet), sig ∉ idx.map Prod.fst → updateSig idx sig row = idx := by
  intro idx
  induction idx with
  | nil => intro _; rfl
  | cons e rest ih =>
    intro h
    simp only [List.map_cons, List.mem_cons, not_or] at h
    simp only [updateSig, List.map_cons]
    rw [if_neg (fun he => h.1 he.symm)]
    have htail := ih h.2
    simp only [updateSig] at htail
    rw [htail]

theorem applyOverlay_length (ks : List String) (ov : List ParamSet) :
    ∀ idx, (applyOverlay ks idx ov).length = idx.length := by
  induction ov with
  | nil => intro idx; rfl
  | cons r rest ih =>
    intro idx
    have h1 : applyOverlay ks idx (r :: rest) =
        applyOverlay ks (updateSig idx (paramSetKey ks r) r) rest := rfl
    rw [h1, ih, updateSig_length]

theorem foldOverlays_length (ks : List String) (ovs : List (List ParamSet)) :
    ∀ idx, (ovs.foldl (fun acc overlay => applyOverlay ks acc overlay) idx).length = idx.length := by
  induction ovs with
  | nil => intro idx; rfl
  | cons ov rest ih =>
    intro idx
    rw [List.foldl_cons, ih, applyOverlay_length]

theorem mem_firstDedup (a : String) (l : List String) : a ∈ firstDedup l ↔ a ∈ l := by
  induction l with
  | nil => simp [firstDedup]
  | cons k ks ih =>
    by_cases hak : a = k
    · subst hak
      simp [firstDedup]
    · simp [firstDedup, List.mem_filter, bne_iff_ne, hak, ih]

theorem nodup_firstDedup (l : List String) : (firstDedup l).Nodup := by
  induction l with
  | nil => exact List.nodup_nil
  | cons k ks ih =>
    simp only [firstDedup, List.nodup_cons]
    refine ⟨?_, ih.filter _⟩
    intro hmem
    rw [List.mem_filter] at hmem
    exact (bne_iff_ne.mp hmem.2) rfl

theorem firstDedup_eq_nil (l : List String) : firstDedup l = [] ↔ l = [] := by
  cases l <;> simp [firstDedup]

theorem sortKeys_congr (l1 l2 : List String) (h : l1.Perm l2) : sortKeys l1 = sortKeys l2 := by
  haveI hT : IsTotal String (fun a b : String => a ≤ b) := ⟨le_total⟩
  haveI hTr : IsTrans String (fun a b : String => a ≤ b) := ⟨fun _ _ _ => le_trans⟩
  haveI hA : IsAntisymm String (fun a b : String => a ≤ b) := ⟨fun _ _ => le_antisymm⟩
  have hp : (List.insertionSort (fun a b : String => a ≤ b) l1).Perm
      (List.insertionSort (fun a b : String => a ≤ b) l2) :=
    (List.perm_insertionSort _ l1).trans (h.trans (List.perm_insertionSort _ l2).symm)
  exact List.eq_of_perm_of_sorted hp (List.sorted_insertionSort _ l1)
    (List.sorted_insertionSort _ l2)

theorem firstDedup_idem_perm (l : List String) :
    (firstDedup (firstDedup l)).Perm (firstDedup l) :=
  (List.perm_ext_iff_of_nodup (nodup_firstDedup _) (nodup_firstDedup l)).mpr
    (fun a => mem_firstDedup a (firstDedup l))

theorem paramSetKey_firstDedup_eq (ks : List String) (p : ParamSet) :
    paramSetKey (firstDedup ks) p = paramSetKey ks p := by
  unfold paramSetKey
  rw [sortKeys_congr _ _ (firstDedup_idem_perm ks)]

theorem indexParamSets_congr (ks1 ks2 : List String)
    (hkey : ∀ p, paramSetKey ks1 p = paramSetKey ks2 p) :
    ∀ (pss : List ParamSet) (seen : List String),
      indexParamSets ks1 pss seen = indexParamSets ks2 pss seen := by
  intro pss
  induction pss with
  | nil => intro seen; rfl
  | cons p rest ih =>
    intro seen
    simp only [indexParamSets, hkey p, ih]

/-- Claim C1: in a Merge evaluation, an overlay row whose merge-key signature
equals a base row's signature is merged into that base row (overlay fields
overwrite same-named base fields, new fields are added, base fields absent
from the overlay are untouched); concretely the happy-flow scenario
base=[a:1_1,b:same,c:1_3] with overlays [a:2_1,b:same] and
[a:3_1,b:different,c:3_3] under mergeKeys ["b"] yields exactly
[a:2_1,b:same,c:1_3]. -/
theorem merge_overlay_application :
    MergeGenerator.GenerateParams (some happyFlowSpec) =
      .ok [[("a", "2_1"), ("b", "same"), ("c", "1_3")]]
    ∧ ∀ (b o : ParamSet) (key : String),
        lookupPS (mergeRow b o) key = orO (lookupPS o.reverse key) (lookupPS b key) :=
  ⟨rfl, fun b o key => lookupPS_mergeRow b o key⟩

/-- Claim C2: for every valid Merge evaluation (at least two generators, all
nested evaluations succeed, the base rows index without error — which covers
at least one merge key and no signature collision), the output row count
equals the base generator's row count regardless of overlay row counts; an
overlay row matching no base signature changes nothing (silent discard, never
a new row, never an error). -/
theorem merge_rowcount (g : ApplicationSetGenerator) (m : MergeGeneratorSpec)
    (base : List ParamSet) (overlays : List (List ParamSet))
    (indexed : List (String × ParamSet))
    (hm : g.merge = some m)
    (hlen : 2 ≤ m.generators.length)
    (heval : mapExcept evalNested m.generators = .ok (base :: overlays))
    (hidx : getParamSetsByMergeKey m.mergeKeys base = .ok indexed) :
    (∃ out, MergeGenerator.GenerateParams (some g) = .ok out ∧ out.length = base.length)
    ∧ (∀ (idx : List (String × ParamSet)) (sig : String) (row : ParamSet),
        sig ∉ idx.map Prod.fst → updateSig idx sig row = idx) := by
  constructor
  · have hnotlt : ¬ m.generators.length < 2 := Nat.not_lt.mpr hlen
    have hidxlen : indexed.length = base.length := by
      unfold getParamSetsByMergeKey at hidx
      by_cases hke : m.mergeKeys = []
      · rw [if_pos hke] at hidx; cases hidx
      · rw [if_neg hke] at hidx
        exact indexParamSets_ok_length _ _ _ _ hidx
    refine ⟨(overlays.foldl (fun acc overlay => applyOverlay m.mergeKeys acc overlay)
      indexed).map Prod.snd, ?_, ?_⟩
    · simp only [MergeGenerator.GenerateParams, hm, if_neg hnotlt, heval, mergeParamSets, hidx]
    · rw [List.length_map, foldOverlays_length, hidxlen]
  · intro idx sig row h
    exact updateSig_not_mem sig row idx h

/-- Witness for C2: the happy-flow merge spec has base row count 1 and output
row count 1. -/
theorem merge_rowcount_witness :
    ∃ out, MergeGenerator.GenerateParams (some happyFlowSpec) = .ok out ∧ out.length = 1 :=
  (merge_rowcount happyFlowSpec
    ⟨[nestedListOf elemBase, nestedListOf elemOverlay1, nestedListOf elemOverlay2], ["b"], tmpl⟩
    [[("a", "1_1"), ("b", "same"), ("c", "1_3")]]
    [[[("a", "2_1"), ("b", "same")]], [[("a", "3_1"), ("b", "different"), ("c", "3_3")]]]
    [("\x7b\"b\":\"same\"\x7d", [("a", "1_1"), ("b", "same"), ("c", "1_3")])]
    rfl (by decide) rfl rfl).1

/-- Claim C3: the canonicalizer's indexing fails `noMergeKeys` on an empty
merge-key list; fails `nonUniqueParamSets` — whose message names the
colliding signature — on the first duplicate signature in input-order scan;
and with nonempty keys and all-distinct signatures returns the mapping from
each row's signature to that row, in input order. -/
theorem getParamSetsByMergeKey_spec (ks : List String) (pss : List ParamSet) :
    (ks = [] → getParamSetsByMergeKey ks pss = .error .noMergeKeys)
    ∧ (∀ (pre : List ParamSet) (p : ParamSet) (post : List ParamSet),
        ks ≠ [] → pss = pre ++ p :: post →
        (pre.map (paramSetKey ks)).Nodup →
        paramSetKey ks p ∈ pre.map (paramSetKey ks) →
        getParamSetsByMergeKey ks pss = .error (.nonUniqueParamSets (paramSetKey ks p))
        ∧ errMessage (.nonUniqueParamSets (paramSetKey ks p)) =
          "param sets are not unique. Duplicate key was " ++ paramSetKey ks p)
    ∧ (ks ≠ [] → (pss.map (paramSetKey ks)).Nodup →
        getParamSetsByMergeKey ks pss = .ok (pss.map (fun p => (paramSetKey ks p, p)))) := by
  refine ⟨?_, ?_, ?_⟩
  · intro hke
    simp [getParamSetsByMergeKey, hke]
  · intro pre p post hke hps hnd hdup
    subst hps
    refine ⟨?_, rfl⟩
    unfold getParamSetsByMergeKey
    rw [if_neg hke]
    exact indexParamSets_err_of_dup ks p post pre [] hnd (by simp) (Or.inl hdup)
  · intro hke hnd
    unfold getParamSetsByMergeKey
    rw [if_neg hke]
    exact indexParamSets_ok_of_nodup ks pss [] hnd (by simp)

/-- Witness for C3: the non-unique scenario from the tests fails naming the
duplicated signature of the third row. -/
theorem getParamSetsByMergeKey_spec_witness :
    getParamSetsByMergeKey ["key"] [[("key", "a")], [("key", "b")], [("key", "b")]] =
      .error (.nonUniqueParamSets "\x7b\"key\":\"b\"\x7d") :=
  (((getParamSetsByMergeKey_spec ["key"]
      [[("key", "a")], [("key", "b")], [("key", "b")]]).2.1
    [[("key", "a")], [("key", "b")]] [("key", "b")] []
    (by decide) rfl (by decide) (by decide))).1

/-- Claim C4: repeating a merge-key name does not change the canonical
signature versus the deduplicated list, hence the indexing result is
unchanged as well. -/
theorem paramSetKey_dedup_invariant (ks : List String) :
    (∀ p, paramSetKey (firstDedup ks) p = paramSetKey ks p)
    ∧ (∀ pss, getParamSetsByMergeKey (firstDedup ks) pss = getParamSetsByMergeKey ks pss) := by
  constructor
  · exact paramSetKey_firstDedup_eq ks
  · intro pss
    unfold getParamSetsByMergeKey
    by_cases hke : ks = []
    · subst hke
      simp [firstDedup]
    · rw [if_neg hke, if_neg (fun h => hke ((firstDedup_eq_nil ks).mp h))]
      exact indexParamSets_congr _ _ (paramSetKey_firstDedup_eq ks) pss []

/-- Claim C5: a Merge spec with fewer than two nested generators fails with
the `lessThanTwoGeneratorsInMerge` error ("there should be at least two
generators in merge"), regardless of the merge keys; in the model the length
check precedes every nested evaluation, so no nested generator is evaluated. -/
theorem merge_less_than_two (g : ApplicationSetGenerator) (m : MergeGeneratorSpec)
    (hm : g.merge = some m) (hlen : m.generators.length < 2) :
    MergeGenerator.GenerateParams (some g) = .error .lessThanTwoGeneratorsInMerge
    ∧ errMessage .lessThanTwoGeneratorsInMerge =
      "there should be at least two generators in merge" := by
  refine ⟨?_, rfl⟩
  simp only [MergeGenerator.GenerateParams, hm, if_pos hlen]

/-- Witness for C5: a one-generator merge spec fails with the
less-than-two-generators error. -/
theorem merge_less_than_two_witness :
    MergeGenerator.GenerateParams
      (some { merge := some ⟨[nestedListOf elemBase], ["b"], tmpl⟩ }) =
      .error .lessThanTwoGeneratorsInMerge :=
  (merge_less_than_two _ ⟨[nestedListOf elemBase], ["b"], tmpl⟩ rfl (by decide)).1

/-- Claim C6: for every valid List spec, GenerateParams returns exactly one
ParamSet per element, with output length equal to the element count and the
i-th output flattened from the i-th element. -/
theorem list_length_order (g : ApplicationSetGenerator) (spec : ListGeneratorSpec)
    (res : List ParamSet) (hl : g.list = some spec)
    (hok : ListGenerator.GenerateParams (some g) = .ok res) :
    res.length = spec.elements.length ∧
    ∀ i (h1 : i < spec.elements.length) (h2 : i < res.length),
      flattenElement (spec.elements.get ⟨i, h1⟩) = .ok (res.get ⟨i, h2⟩) := by
  have hmk : mapExcept flattenElement spec.elements = .ok res := by
    simpa [ListGenerator.GenerateParams, hl] using hok
  exact ⟨mapExcept_ok_length _ _ _ hmk, fun i h1 h2 => mapExcept_ok_get _ _ _ hmk i h1 h2⟩

/-- Witness for C6: a two-element list spec yields two ParamSets. -/
theorem list_length_order_witness :
    ([[("x", "1")], [("x", "2")]] : List ParamSet).length =
      [JSON.obj [("x", JSON.str "1")], JSON.obj [("x", JSON.str "2")]].length :=
  (list_length_order
    { list := some ⟨[.obj [("x", .str "1")], .obj [("x", .str "2")]], tmpl⟩ }
    ⟨[.obj [("x", .str "1")], .obj [("x", .str "2")]], tmpl⟩
    [[("x", "1")], [("x", "2")]] rfl rfl).1

/-- Claim C7: per-element flattening — when every field is good (a `values`
field is an object of strings, any other field a string) the element
flattens to exactly the spec-side entries; when some field is bad the whole
element fails with a value-parsing error; and a successful GenerateParams
means every element flattened successfully (no partial list). -/
theorem list_flattening_rule (fields : List (String × JSON)) :
    (goodFields fields = true → flattenElement (.obj fields) = .ok (listFlattenSpec fields))
    ∧ (goodFields fields = false →
        ∃ e, flattenElement (.obj fields) = .error e ∧
          (e = .parsingValuesMap ∨ e = .parsingValueAsString))
    ∧ (∀ (g : ApplicationSetGenerator) (spec : ListGeneratorSpec) (res : List ParamSet),
        g.list = some spec → ListGenerator.GenerateParams (some g) = .ok res →
        ∀ el ∈ spec.elements, ∃ ps, flattenElement el = .ok ps) := by
  refine ⟨?_, ?_, ?_⟩
  · intro hgood
    exact flattenFields_ok fields hgood []
  · intro hbad
    exact flattenFields_err fields hbad []
  · intro g spec res hl hok el hel
    have hmk : mapExcept flattenElement spec.elements = .ok res := by
      simpa [ListGenerator.GenerateParams, hl] using hok
    exact mapExcept_ok_mem _ _ _ hmk el hel

/-- Witness for C7: a good element with a plain field and a values object
flattens to its spec-side entries. -/
theorem list_flattening_rule_witness :
    flattenElement (.obj [("a", .str "x"), ("values", .obj [("k", .str "v")])]) =
      .ok (listFlattenSpec [("a", .str "x"), ("values", .obj [("k", .str "v")])]) :=
  (list_flattening_rule [("a", .str "x"), ("values", .obj [("k", .str "v")])]).1 rfl

/-- Counterexample for C8: an element with a top-level string field literally
named `values.x` and a values object also containing key `x` loses one of the
two values — the top-level field's value "A" does not survive under its own
name, refuting the claim as stated. -/
theorem list_no_loss_counterexample :
    flattenElement (.obj [("values.x", .str "A"), ("values", .obj [("x", .str "B")])]) =
      .ok [("values.x", "B")]
    ∧ lookupPS [("values.x", "B")] "values.x" ≠ some "A" :=
  ⟨rfl, by decide⟩

/-- Claim C8 (amended): for every List element whose fields are strings plus
optionally a values object of strings, if the produced parameter keys
(top-level names and values.-prefixed sub-keys) are pairwise distinct, then
every input field appears in the ParamSet under its own (possibly
values.-prefixed) name with its original value. -/
theorem list_no_field_loss (fields : List (String × JSON))
    (hgood : goodFields fields = true)
    (hnd : ((entriesOf fields).map Prod.fst).Nodup) :
    ∃ ps, flattenElement (.obj fields) = .ok ps ∧
      ∀ kv ∈ entriesOf fields, lookupPS ps kv.1 = some kv.2 := by
  refine ⟨listFlattenSpec fields, flattenFields_ok fields hgood [], ?_⟩
  intro kv hkv
  have h1 : lookupPS (listFlattenSpec fields) kv.1 =
      orO (lookupPS (entriesOf fields).reverse kv.1) (lookupPS [] kv.1) :=
    lookupPS_insertAll (entriesOf fields) [] kv.1
  rw [h1]
  have h2 : lookupPS (entriesOf fields).reverse kv.1 = some kv.2 := by
    apply lookupPS_nodup_mem
    · rw [List.map_reverse]
      exact List.nodup_reverse.mpr hnd
    · exact List.mem_reverse.mpr hkv
  rw [h2]
  rfl

/-- Witness for C8 (amended): with distinct produced keys, both the plain
field and the values sub-field survive with their original values. -/
theorem list_no_field_loss_witness :
    ∃ ps, flattenElement (.obj [("a", .str "x"), ("values", .obj [("k", .str "v")])]) = .ok ps ∧
      ∀ kv ∈ entriesOf [("a", .str "x"), ("values", .obj [("k", .str "v")])],
        lookupPS ps kv.1 = some kv.2 :=
  list_no_field_loss [("a", .str "x"), ("values", .obj [("k", .str "v")])] rfl (by decide)

/-- Claim C9: a nil generator spec or a spec whose List variant is absent
makes GenerateParams return the terminal empty-spec error, before any element
is decoded. -/
theorem list_empty_generator_error (g : Option ApplicationSetGenerator)
    (h : g = none ∨ ∃ gg, g = some gg ∧ gg.list = none) :
    ListGenerator.GenerateParams g = .error .emptyAppSetGenerator
    ∧ errMessage .emptyAppSetGenerator = "generator spec is empty" := by
  refine ⟨?_, rfl⟩
  rcases h with rfl | ⟨gg, rfl, hl⟩
  · rfl
  · simp [ListGenerator.GenerateParams, hl]

/-- Witness for C9: the nil spec returns the empty-spec error. -/
theorem list_empty_generator_error_witness :
    ListGenerator.GenerateParams none = .error .emptyAppSetGenerator :=
  (list_empty_generator_error none (Or.inl rfl)).1

/-- Claim C10: GetTemplate is not total at the public interface — the Go code
dereferences the List variant unconditionally, so the Option-valued embedding
returns none exactly when the spec or its List variant is nil, returns the
attached template otherwise, and on the none inputs GenerateParams instead
returns the empty-spec error. -/
theorem list_get_template_totality (g : Option ApplicationSetGenerator) :
    (ListGenerator.GetTemplate g = none ↔ (g = none ∨ ∃ gg, g = some gg ∧ gg.list = none))
    ∧ (∀ gg spec, g = some gg → gg.list = some spec →
        ListGenerator.GetTemplate g = some spec.template)
    ∧ (ListGenerator.GetTemplate g = none →
        ListGenerator.GenerateParams g = .error .emptyAppSetGenerator) := by
  refine ⟨?_, ?_, ?_⟩
  · cases g with
    | none => simp [ListGenerator.GetTemplate]
    | some gg =>
      cases hl : gg.list with
      | none => simp [ListGenerator.GetTemplate, hl]
      | some spec => simp [ListGenerator.GetTemplate, hl]
  · intro gg spec hg hl
    subst hg
    simp [ListGenerator.GetTemplate, hl]
  · intro hnone
    cases g with
    | none => rfl
    | some gg =>
      cases hl : gg.list with
      | none => simp [ListGenerator.GenerateParams, hl]
      | some spec => simp [ListGenerator.GetTemplate, hl] at hnone

/-- Witness for C10: with the List variant present, GetTemplate returns the
attached template. -/
theorem list_get_template_totality_witness :
    ListGenerator.GetTemplate (some { list := some ⟨[], tmpl⟩ }) = some tmpl :=
  (list_get_template_totality (some { list := some ⟨[], tmpl⟩ })).2.1 _ ⟨[], tmpl⟩ rfl rfl
